import Mathlib

/-!
Shallow embedding of the GT48 48-bit timestamp generator (src/timestamp.js)
and its Base64URL codec, together with proofs of the specified properties.

Modelling conventions:
* JavaScript numbers that the core ever holds are integers here (`Int`):
  the clock readings used by the claims are integer mock-clock values, and
  all arithmetic the generator performs on them (`Math.pow(2, w)` products,
  additions, `Math.floor` divisions by powers of two) is exact integer
  arithmetic in that range.
* A JavaScript string is modelled as its list of characters (`List Char`);
  `charCodeAt` is `Char.toNat` (all characters the codec accepts are ASCII,
  where the two notions of character coincide).
* `throw` is modelled by returning an error value (`Except GTError` for the
  codec and configuration, an explicit result constructor for the
  generator); the JavaScript code throws before mutating any state, and the
  model mirrors this by returning the untouched state alongside the error.
* The generator's clock source (`_getCurrentTime`) is modelled as a list of
  readings consumed one by one; the busy-wait loop in `generateRaw` walks
  down that list, and a run that exhausts the list inside the busy-wait
  (the JavaScript would spin forever on such a clock) yields no result.
-/

namespace GT48

/-- MAX_48_BIT constant of timestamp.js: 0xFFFFFFFFFFFF = 2^48 - 1. -/
def MAX_48_BIT : Int := 0xFFFFFFFFFFFF

/-- BASE64URL_CHARS of timestamp.js: the RFC 4648 section 5 alphabet. -/
def BASE64URL_CHARS : String :=
  "ABCDEFGHIJKLMNOPQRSTUVWXYZabcdefghijklmnopqrstuvwxyz0123456789-_"

/-- ENCODE_TABLE of timestamp.js: entry i is character i of the alphabet. -/
def ENCODE_TABLE : List Char := BASE64URL_CHARS.toList

/-- DECODE_TABLE of timestamp.js: a 128-entry table, 255 everywhere except
that the character code of alphabet character i maps to i.  The JavaScript
initialisation loop writes index i at `charCodeAt(i)` for each i; since the
64 character codes are pairwise distinct, the resulting table is the first
(equivalently, unique) index of the character with the given code. -/
def DECODE_TABLE (code : Nat) : Nat :=
  match ENCODE_TABLE.findIdx? (fun ch => ch.toNat == code) with
  | some i => i
  | none => 255

/-- The error kinds of timestamp.js (subclasses of GT48Error). -/
inductive GTError where
  | invalidEncoding
  | timestampRange
  | invalidConfig
deriving DecidableEq, Repr

/-- The digit-extraction loop of encodeBase64URL48: for i = 7 down to 0 it
takes `value % 64` and then divides by 64, so the digit list (most
significant first) is built by recursing on the quotient. -/
def encodeChunks : Nat → Nat → List Nat
  | 0, _ => []
  | n + 1, v => encodeChunks n (v / 64) ++ [v % 64]

/-- encodeBase64URL48 of timestamp.js: rejects values outside
[0, MAX_48_BIT], otherwise emits the 8 base-64 digits of the value, most
significant first, each looked up in ENCODE_TABLE. -/
def encodeBase64URL48 (value : Int) : Except GTError (List Char) :=
  if value < 0 ∨ value > MAX_48_BIT then .error .timestampRange
  else .ok ((encodeChunks 8 value.toNat).map (fun d => ENCODE_TABLE.getD d 'A'))

/-- The character loop of decodeTimestamp48: per character, reject codes
not below 128, look the code up in DECODE_TABLE, reject the 255 marker, and
accumulate `result * 64 + value`. -/
def decodeLoop : List Char → Int → Except GTError Int
  | [], acc => .ok acc
  | c :: cs, acc =>
    if 128 ≤ c.toNat then .error .invalidEncoding
    else
      let v := DECODE_TABLE c.toNat
      if v = 255 then .error .invalidEncoding
      else decodeLoop cs (acc * 64 + (v : Int))

/-- decodeTimestamp48 of timestamp.js, on string inputs: an input whose
length is not 8 is rejected, otherwise the 8 characters are decoded as
base-64 digits, most significant first. -/
def decodeTimestamp48 (encoded : List Char) : Except GTError Int :=
  if encoded.length ≠ 8 then .error .invalidEncoding
  else decodeLoop encoded 0

/-- Whether an Except computation succeeded (a JavaScript call that does
not throw). -/
def succeeds {ε α : Type} : Except ε α → Bool
  | .ok _ => true
  | .error _ => false

/-- isValidTimestamp of timestamp.js, on string inputs: attempt the decode,
and on success additionally check the decoded value against [0, MAX_48_BIT];
any thrown error is caught and turned into `false`. -/
def isValidTimestamp (encoded : List Char) : Bool :=
  match decodeTimestamp48 encoded with
  | .ok decoded => decide (0 ≤ decoded ∧ decoded ≤ MAX_48_BIT)
  | .error _ => false

/-- A JavaScript value as far as decodeTimestamp48 can observe one: a
string, or any non-string value (number, null, undefined, boolean,
object). -/
inductive JSValue where
  | str (s : List Char)
  | num (n : Int)
  | nullV
  | undef
  | boolV (b : Bool)
  | obj
deriving DecidableEq, Repr

/-- decodeTimestamp48 of timestamp.js on an arbitrary argument: the guard
`typeof encoded !== 'string' || encoded.length !== 8` throws
InvalidEncodingError for every non-string, and strings proceed as above. -/
def decodeTimestamp48JS (encoded : JSValue) : Except GTError Int :=
  match encoded with
  | .str s => decodeTimestamp48 s
  | _ => .error .invalidEncoding

/-- isValidTimestamp of timestamp.js on an arbitrary argument. -/
def isValidTimestampJS (encoded : JSValue) : Bool :=
  match decodeTimestamp48JS encoded with
  | .ok decoded => decide (0 ≤ decoded ∧ decoded ≤ MAX_48_BIT)
  | .error _ => false

/-- The mutable fields of a TimestampGenerator (its config is carried
separately as the sequence width `w`). -/
structure GenState where
  lastTimestamp : Int
  sequenceCounter : Int
  generatedCount : Nat
  overflowCount : Nat
deriving DecidableEq, Repr

/-- The state a freshly constructed TimestampGenerator starts in. -/
def initState : GenState :=
  { lastTimestamp := 0, sequenceCounter := 0, generatedCount := 0, overflowCount := 0 }

/-- maxSequence field: 2^sequenceBits - 1. -/
def maxSeq (w : Nat) : Int := 2 ^ w - 1

/-- maxTimestamp bound of generateRaw:
Math.floor(MAX_48_BIT / 2^sequenceBits). -/
def maxTimestamp (w : Nat) : Int := MAX_48_BIT / 2 ^ w

/-- The busy-wait loop of generateRaw: read the clock until it reports a
value strictly greater than `last`; returns that value and the unconsumed
readings, or nothing if the supplied readings run out (the JavaScript would
keep spinning on such a clock). -/
def spinWait (last : Int) : List Int → Option (Int × List Int)
  | [] => none
  | t :: ts => if t ≤ last then spinWait last ts else some (t, ts)

/-- Result of one generateRaw call: a value together with the new state and
the unconsumed clock readings; a thrown TimestampRangeError together with
the (unchanged) state and unconsumed readings; or exhaustion of the
supplied clock readings inside the busy-wait loop. -/
inductive GenResult where
  | ok (value : Int) (state : GenState) (rest : List Int)
  | rangeError (state : GenState) (rest : List Int)
  | noClock
deriving DecidableEq, Repr

/-- generateRaw of timestamp.js with sequence width `w`, acting on state
`s`, drawing clock readings from the front of `clock`. -/
def generateRaw (w : Nat) (s : GenState) : List Int → GenResult
  | [] => .noClock
  | now :: rest =>
    if now > maxTimestamp w then .rangeError s rest
    else if now < 0 then .rangeError s rest
    else if now = s.lastTimestamp then
      if s.sequenceCounter + 1 > maxSeq w then
        match spinWait s.lastTimestamp rest with
        | none => .noClock
        | some (next, rest') =>
          .ok (next * 2 ^ w + 0)
            { lastTimestamp := next, sequenceCounter := 0,
              generatedCount := s.generatedCount + 1,
              overflowCount := s.overflowCount + 1 } rest'
      else
        .ok (now * 2 ^ w + (s.sequenceCounter + 1))
          { s with sequenceCounter := s.sequenceCounter + 1,
                   generatedCount := s.generatedCount + 1 } rest
    else if now > s.lastTimestamp then
      .ok (now * 2 ^ w + 0)
        { s with lastTimestamp := now, sequenceCounter := 0,
                 generatedCount := s.generatedCount + 1 } rest
    else
      if s.sequenceCounter + 1 > maxSeq w then
        match spinWait s.lastTimestamp rest with
        | none => .noClock
        | some (next, rest') =>
          .ok (next * 2 ^ w + 0)
            { lastTimestamp := next, sequenceCounter := 0,
              generatedCount := s.generatedCount + 1,
              overflowCount := s.overflowCount + 1 } rest'
      else
        .ok (s.lastTimestamp * 2 ^ w + (s.sequenceCounter + 1))
          { s with sequenceCounter := s.sequenceCounter + 1,
                   generatedCount := s.generatedCount + 1 } rest

/-- Drive a generator for at most `fuel` calls against a mock clock,
collecting the values of the successful calls and the final state.  A call
that throws a range error leaves the state unchanged and the run continues
with the remaining readings; a call that exhausts the clock inside the
busy-wait ends the run. -/
def runGenS (w : Nat) : Nat → GenState → List Int → List Int × GenState
  | 0, s, _ => ([], s)
  | fuel + 1, s, clock =>
    match generateRaw w s clock with
    | .ok v s' rest =>
      let r := runGenS w fuel s' rest
      (v :: r.1, r.2)
    | .rangeError s' rest => runGenS w fuel s' rest
    | .noClock => ([], s)

/-- The values returned by a run of at most `fuel` generateRaw calls. -/
def runGen (w : Nat) (fuel : Nat) (s : GenState) (clock : List Int) : List Int :=
  (runGenS w fuel s clock).1

/-- The sequenceBits entry of a configuration object as _validateConfig can
observe it: a JavaScript number (rationals cover every numeric value the
integer test can accept or reject) or any non-numeric value. -/
inductive ConfigValue where
  | num (q : ℚ)
  | nonNum
deriving DecidableEq, Repr

/-- The sequenceBits branch of _validateConfig: an absent field is
accepted; a present field must be an integer (Number.isInteger) between 1
and 16, anything else throws InvalidConfigError. -/
def validateSequenceBits : Option ConfigValue → Except GTError Unit
  | none => .ok ()
  | some .nonNum => .error .invalidConfig
  | some (.num q) =>
    if q.den ≠ 1 ∨ q < 1 ∨ q > 16 then .error .invalidConfig
    else .ok ()

/-- The TimestampGenerator constructor, restricted to the sequenceBits
configuration field (the other fields are validated independently and left
at their defaults here): validation runs first, and on success the instance
stores the supplied width unchanged (default 8) and the fresh state. -/
def mkGenerator (sequenceBits : Option ConfigValue) : Except GTError (Nat × GenState) :=
  match validateSequenceBits sequenceBits with
  | .error e => .error e
  | .ok () =>
    match sequenceBits with
    | none => .ok (8, initState)
    | some (.num q) => .ok (q.num.toNat, initState)
    | some .nonNum => .ok (0, initState)

end GT48

namespace GT48

/-- Claim C5: on a fresh default-width (8-bit) generator, the mock clock
readings 100, 100, 99, 101 produce the four strictly increasing identifiers
100*256+0, 100*256+1, 100*256+2, 101*256+0: the third call reuses the
retained lastTimestamp 100 (not the backward reading 99) with sequence 2,
and the fourth uses time component 101 with sequence 0. -/
theorem backward_clock_scenario :
    runGen 8 4 initState [100, 100, 99, 101] =
      [100 * 2 ^ 8 + 0, 100 * 2 ^ 8 + 1, 100 * 2 ^ 8 + 2, 101 * 2 ^ 8 + 0] ∧
    (runGen 8 4 initState [100, 100, 99, 101]).Pairwise (· < ·) := by
  constructor
  · decide
  · decide

/-- Claim C6: a clock reading above maxTimestamp or below zero makes
generateRaw throw a range error and leaves every state field exactly as it
was before the call. -/
theorem generateRaw_range_error (w : Nat) (s : GenState) (t : Int) (rest : List Int)
    (h : t > maxTimestamp w ∨ t < 0) :
    generateRaw w s (t :: rest) = .rangeError s rest := by
  rcases h with h | h
  · simp [generateRaw, h]
  · have h2 : ¬ t > maxTimestamp w ∨ t > maxTimestamp w := by tauto
    rcases h2 with h2 | h2
    · simp [generateRaw, h, h2]
    · simp [generateRaw, h2]

/-- Witness for generateRaw_range_error at w = 8, the fresh state and the
pre-epoch reading -1. -/
theorem generateRaw_range_error_witness :
    generateRaw 8 initState [-1] = .rangeError initState [] :=
  generateRaw_range_error 8 initState (-1) [] (Or.inr (by decide))

/-- Claim C2 failing input: with the default 8-bit sequence width, 256
readings of tick 0 followed by a reading of 2^40 (one past the
maxTimestamp bound of 2^40 - 1) drive the 256th call down the
sequence-overflow recovery path, and that call returns
2^40 * 256 = 2^48, which exceeds the 48-bit maximum: the busy-wait path
re-reads the clock without re-checking the range bound. -/
theorem overflow_recovery_exceeds_48_bits :
    (runGen 8 256 initState (List.replicate 256 0 ++ [2 ^ 40])).getLast? =
      some (2 ^ 48) ∧ (2 ^ 48 : Int) > MAX_48_BIT := by
  constructor
  · decide
  · decide

end GT48

namespace GT48

/-- Claim C9: constructing a TimestampGenerator with a sequenceBits value
that is not an integer between 1 and 16 throws InvalidConfigError and
yields no instance, while every integer between 1 and 16 is accepted and
stored unchanged (n.toNat casts back to n). -/
theorem sequenceBits_validation (v : ConfigValue) (n : ℤ)
    (h1 : 1 ≤ n) (h16 : n ≤ 16) :
    ((¬ ∃ m : ℤ, 1 ≤ m ∧ m ≤ 16 ∧ v = .num (m : ℚ)) →
      mkGenerator (some v) = .error .invalidConfig) ∧
    mkGenerator (some (.num (n : ℚ))) = .ok (n.toNat, initState) ∧
    ((n.toNat : ℤ) = n) := by
  refine ⟨?_, ?_, Int.toNat_of_nonneg (le_trans one_pos.le h1)⟩
  · intro hno
    cases v with
    | nonNum => rfl
    | num q =>
      by_cases hbad : q.den ≠ 1 ∨ q < 1 ∨ q > 16
      · simp [mkGenerator, validateSequenceBits, hbad]
      · exfalso
        push_neg at hbad
        obtain ⟨hden, hlo, hhi⟩ := hbad
        refine hno ⟨q.num, ?_, ?_, ?_⟩
        · exact_mod_cast (Rat.den_eq_one_iff q).mp hden ▸ hlo
        · exact_mod_cast (Rat.den_eq_one_iff q).mp hden ▸ hhi
        · rw [(Rat.den_eq_one_iff q).mp hden]
  · have hden : ((n : ℚ)).den = 1 := Rat.den_intCast n
    have hlo : ¬ ((n : ℚ) < 1) := by exact_mod_cast not_lt.mpr (by exact_mod_cast h1)
    have hhi : ¬ ((n : ℚ) > 16) := by exact_mod_cast not_lt.mpr (by exact_mod_cast h16)
    simp [mkGenerator, validateSequenceBits, hden, hlo, hhi, Rat.num_intCast]

/-- Witness for sequenceBits_validation at the non-numeric value and at
the default width 8. -/
theorem sequenceBits_validation_witness :
    mkGenerator (some .nonNum) = .error .invalidConfig ∧
    mkGenerator (some (.num ((8 : ℤ) : ℚ))) = .ok ((8 : ℤ).toNat, initState) := by
  have h := sequenceBits_validation .nonNum 8 (by decide) (by decide)
  exact ⟨h.1 (by rintro ⟨m, -, -, hm⟩; exact ConfigValue.noConfusion hm), h.2.1⟩

end GT48

namespace GT48

theorem encodeChunks_length (n : Nat) : ∀ v : Nat, (encodeChunks n v).length = n := by
  induction n with
  | zero => intro v; rfl
  | succ n ih => intro v; simp [encodeChunks, ih]

theorem encodeChunks_lt (n : Nat) : ∀ v : Nat, ∀ d ∈ encodeChunks n v, d < 64 := by
  induction n with
  | zero => intro v d hd; simp [encodeChunks] at hd
  | succ n ih =>
    intro v d hd
    simp only [encodeChunks, List.mem_append, List.mem_singleton] at hd
    rcases hd with hd | hd
    · exact ih _ d hd
    · subst hd; exact Nat.mod_lt _ (by norm_num)

set_option maxRecDepth 16384

theorem encodeTable_getD (d : Nat) (hd : d < 64) :
    ENCODE_TABLE.getD d 'A' ∈ ENCODE_TABLE ∧
    DECODE_TABLE ((ENCODE_TABLE.getD d 'A').toNat) = d := by
  have h : ∀ d ∈ List.range 64, ENCODE_TABLE.getD d 'A' ∈ ENCODE_TABLE ∧
      DECODE_TABLE ((ENCODE_TABLE.getD d 'A').toNat) = d := by decide
  exact h d (List.mem_range.mpr hd)

theorem mem_encodeTable (c : Char) (hc : c ∈ ENCODE_TABLE) :
    c.toNat < 128 ∧ DECODE_TABLE c.toNat ≠ 255 ∧ DECODE_TABLE c.toNat < 64 ∧
    ENCODE_TABLE.getD (DECODE_TABLE c.toNat) 'A' = c := by
  have h : ∀ c ∈ ENCODE_TABLE, c.toNat < 128 ∧ DECODE_TABLE c.toNat ≠ 255 ∧
      DECODE_TABLE c.toNat < 64 ∧ ENCODE_TABLE.getD (DECODE_TABLE c.toNat) 'A' = c := by
    decide
  exact h c hc

theorem decodeTable_small (code : Nat) (h : code < 128) :
    DECODE_TABLE code < 64 ∨ DECODE_TABLE code = 255 := by
  have hall : ∀ code ∈ List.range 128, DECODE_TABLE code < 64 ∨ DECODE_TABLE code = 255 := by
    decide
  exact hall code (List.mem_range.mpr h)

theorem decodeTable_not_mem (c : Char) (hmem : c ∉ ENCODE_TABLE) :
    DECODE_TABLE c.toNat = 255 := by
  unfold DECODE_TABLE
  have h : ENCODE_TABLE.findIdx? (fun ch => ch.toNat == c.toNat) = none := by
    rw [List.findIdx?_eq_none_iff]
    intro ch hch
    rw [beq_eq_false_iff_ne]
    intro heq
    apply hmem
    have h1 := Char.ofNat_toNat ch
    rw [heq] at h1
    rw [← h1, Char.ofNat_toNat c] at hch
    exact hch
  rw [h]

theorem decodeLoop_ok (cs : List Char) (h : ∀ c ∈ cs, c ∈ ENCODE_TABLE) : ∀ acc : Int,
    decodeLoop cs acc =
      .ok (cs.foldl (fun a c => a * 64 + (DECODE_TABLE c.toNat : Int)) acc) := by
  induction cs with
  | nil => intro acc; rfl
  | cons c cs ih =>
    intro acc
    have hc := mem_encodeTable c (h c (List.mem_cons_self c cs))
    have h128 : ¬ 128 ≤ c.toNat := by omega
    simp only [decodeLoop, if_neg h128, if_neg hc.2.1, List.foldl_cons]
    exact ih (fun x hx => h x (List.mem_cons_of_mem c hx)) _

theorem decodeLoop_error (cs : List Char) (c0 : Char) (h0 : c0 ∈ cs)
    (hbad : c0 ∉ ENCODE_TABLE) : ∀ acc : Int,
    decodeLoop cs acc = .error .invalidEncoding := by
  induction cs with
  | nil => cases h0
  | cons c cs ih =>
    intro acc
    by_cases hc : c ∈ ENCODE_TABLE
    · have hp := mem_encodeTable c hc
      have h128 : ¬ 128 ≤ c.toNat := by omega
      have hc0 : c0 ∈ cs := by
        rcases List.mem_cons.mp h0 with h | h
        · exact absurd (h ▸ hc) hbad
        · exact h
      simp only [decodeLoop, if_neg h128, if_neg hp.2.1]
      exact ih hc0 _
    · by_cases h128 : 128 ≤ c.toNat
      · simp only [decodeLoop, if_pos h128]
      · have h255 := decodeTable_not_mem c hc
        simp only [decodeLoop, if_neg h128, if_pos h255]

theorem decodeLoop_bound (cs : List Char) : ∀ (acc r : Int), 0 ≤ acc →
    decodeLoop cs acc = .ok r → 0 ≤ r ∧ r < (acc + 1) * 64 ^ cs.length := by
  induction cs with
  | nil =>
    intro acc r hacc h
    injection h with h
    subst h
    refine ⟨hacc, ?_⟩
    simp only [List.length_nil, pow_zero, mul_one]
    omega
  | cons c cs ih =>
    intro acc r hacc h
    by_cases h128 : 128 ≤ c.toNat
    · simp only [decodeLoop, if_pos h128] at h
      exact Except.noConfusion h
    · by_cases h255 : DECODE_TABLE c.toNat = 255
      · simp only [decodeLoop, if_neg h128, if_pos h255] at h
        exact Except.noConfusion h
      · simp only [decodeLoop, if_neg h128, if_neg h255] at h
        have hd : DECODE_TABLE c.toNat < 64 := by
          rcases decodeTable_small c.toNat (by omega) with h' | h'
          · exact h'
          · exact absurd h' h255
        have hd0 : (0 : Int) ≤ (DECODE_TABLE c.toNat : Int) := Int.natCast_nonneg _
        have hacc' : 0 ≤ acc * 64 + (DECODE_TABLE c.toNat : Int) := by nlinarith
        obtain ⟨h1, h2⟩ := ih _ r hacc' h
        refine ⟨h1, ?_⟩
        have hstep : acc * 64 + (DECODE_TABLE c.toNat : Int) + 1 ≤ (acc + 1) * 64 := by
          have : (DECODE_TABLE c.toNat : Int) ≤ 63 := by exact_mod_cast Nat.lt_succ_iff.mp hd
          nlinarith
        have hpow : (0 : Int) < 64 ^ cs.length := by positivity
        calc r < (acc * 64 + (DECODE_TABLE c.toNat : Int) + 1) * 64 ^ cs.length := h2
          _ ≤ ((acc + 1) * 64) * 64 ^ cs.length := by
              exact mul_le_mul_of_nonneg_right hstep hpow.le
          _ = (acc + 1) * 64 ^ (cs.length + 1) := by rw [pow_succ]; ring
          _ = (acc + 1) * 64 ^ (c :: cs).length := by rw [List.length_cons]

theorem foldl_encodeChunks (n : Nat) : ∀ v : Nat, v < 64 ^ n → ∀ acc : Int,
    (encodeChunks n v).foldl (fun (a : Int) (d : Nat) => a * 64 + (d : Int)) acc = acc * 64 ^ n + v := by
  induction n with
  | zero =>
    intro v hv acc
    have : v = 0 := by simpa using Nat.lt_one_iff.mp (by simpa using hv)
    subst this
    simp [encodeChunks]
  | succ n ih =>
    intro v hv acc
    have hdiv : v / 64 < 64 ^ n := by
      rw [pow_succ] at hv
      omega
    rw [encodeChunks, List.foldl_append, ih (v / 64) hdiv acc]
    simp only [List.foldl_cons, List.foldl_nil]
    have hmod : ((v / 64 : Nat) : Int) * 64 + ((v % 64 : Nat) : Int) = (v : Int) := by
      have := Nat.div_add_mod v 64
      push_cast
      omega
    calc (acc * 64 ^ n + ((v / 64 : Nat) : Int)) * 64 + ((v % 64 : Nat) : Int)
        = acc * (64 ^ n * 64) + (((v / 64 : Nat) : Int) * 64 + ((v % 64 : Nat) : Int)) := by
          ring
      _ = acc * 64 ^ (n + 1) + (v : Int) := by rw [hmod, pow_succ]

theorem encodeChunks_foldl (ds : List Nat) (h : ∀ d ∈ ds, d < 64) :
    encodeChunks ds.length (ds.foldl (fun a d => a * 64 + d) 0) = ds := by
  induction ds using List.reverseRecOn with
  | nil => rfl
  | append_singleton ds d ih =>
    have hd : d < 64 := h d (by simp)
    rw [List.length_append, List.foldl_append]
    simp only [List.foldl_cons, List.foldl_nil, List.length_singleton]
    rw [encodeChunks]
    have h1 : (ds.foldl (fun a d => a * 64 + d) 0 * 64 + d) / 64 =
        ds.foldl (fun a d => a * 64 + d) 0 := by omega
    have h2 : (ds.foldl (fun a d => a * 64 + d) 0 * 64 + d) % 64 = d := by omega
    rw [h1, h2, ih (fun x hx => h x (by simp [hx]))]

theorem foldl_intCast (ds : List Nat) : ∀ acc : Nat,
    ds.foldl (fun (a : Int) (d : Nat) => a * 64 + (d : Int)) (acc : Int) =
      ((ds.foldl (fun a d => a * 64 + d) acc : Nat) : Int) := by
  induction ds with
  | nil => intro acc; rfl
  | cons d ds ih =>
    intro acc
    simp only [List.foldl_cons]
    have : (acc : Int) * 64 + (d : Int) = ((acc * 64 + d : Nat) : Int) := by push_cast; ring
    rw [this, ih]

end GT48

namespace GT48

theorem decode_encode (v : Int) (hv0 : 0 ≤ v) (hv1 : v ≤ MAX_48_BIT) :
    (encodeBase64URL48 v).bind decodeTimestamp48 = .ok v := by
  have hM : MAX_48_BIT = 281474976710655 := rfl
  have hvN : v.toNat < 64 ^ 8 := by
    have h64 : (64 : Nat) ^ 8 = 281474976710656 := by norm_num
    omega
  have hguard : ¬ (v < 0 ∨ v > MAX_48_BIT) := by push_neg; exact ⟨hv0, hv1⟩
  have henc : encodeBase64URL48 v =
      .ok ((encodeChunks 8 v.toNat).map (fun d => ENCODE_TABLE.getD d 'A')) := by
    rw [encodeBase64URL48, if_neg hguard]
  have hlen : ((encodeChunks 8 v.toNat).map (fun d => ENCODE_TABLE.getD d 'A')).length = 8 := by
    rw [List.length_map, encodeChunks_length]
  have hmem : ∀ c ∈ (encodeChunks 8 v.toNat).map (fun d => ENCODE_TABLE.getD d 'A'),
      c ∈ ENCODE_TABLE := by
    intro c hc
    obtain ⟨d, hd, rfl⟩ := List.mem_map.mp hc
    exact (encodeTable_getD d (encodeChunks_lt 8 v.toNat d hd)).1
  have hfold : ((encodeChunks 8 v.toNat).map (fun d => ENCODE_TABLE.getD d 'A')).foldl
      (fun (a : Int) c => a * 64 + (DECODE_TABLE c.toNat : Int)) 0 = v := by
    rw [List.foldl_map]
    have hext : (encodeChunks 8 v.toNat).foldl
        (fun (a : Int) d => a * 64 + (DECODE_TABLE (ENCODE_TABLE.getD d 'A').toNat : Int)) 0 =
        (encodeChunks 8 v.toNat).foldl (fun (a : Int) (d : Nat) => a * 64 + (d : Int)) 0 := by
      apply List.foldl_ext
      intro a d hd
      rw [(encodeTable_getD d (encodeChunks_lt 8 v.toNat d hd)).2]
    rw [hext, foldl_encodeChunks 8 v.toNat hvN 0]
    simp [Int.toNat_of_nonneg hv0]
  rw [henc]
  show decodeTimestamp48 _ = _
  rw [decodeTimestamp48, if_neg (by simp [hlen, encodeChunks_length]),
    decodeLoop_ok _ hmem 0, hfold]

theorem encode_decode (t : List Char) (h8 : t.length = 8)
    (htab : ∀ c ∈ t, c ∈ ENCODE_TABLE) :
    (decodeTimestamp48 t).bind encodeBase64URL48 = .ok t := by
  have hnl : ¬ t.length ≠ 8 := by simp [h8]
  have hfold : t.foldl (fun (a : Int) c => a * 64 + (DECODE_TABLE c.toNat : Int)) 0 =
      (((t.map (fun c => DECODE_TABLE c.toNat)).foldl
        (fun (a : Nat) (d : Nat) => a * 64 + d) 0 : Nat) : Int) := by
    rw [← foldl_intCast]
    exact (List.foldl_map (fun c => DECODE_TABLE c.toNat)
      (fun (a : Int) (d : Nat) => a * 64 + (d : Int)) t 0).symm
  have hloop : decodeLoop t 0 =
      .ok (((t.map (fun c => DECODE_TABLE c.toNat)).foldl
        (fun (a : Nat) (d : Nat) => a * 64 + d) 0 : Nat) : Int) := by
    rw [decodeLoop_ok t htab 0, hfold]
  have hdecode : decodeTimestamp48 t =
      .ok (((t.map (fun c => DECODE_TABLE c.toNat)).foldl
        (fun (a : Nat) (d : Nat) => a * 64 + d) 0 : Nat) : Int) := by
    rw [decodeTimestamp48, if_neg hnl, hloop]
  obtain ⟨hb0, hb1⟩ := decodeLoop_bound t 0 _ le_rfl hloop
  rw [h8] at hb1
  have hRM : (((t.map (fun c => DECODE_TABLE c.toNat)).foldl
      (fun (a : Nat) (d : Nat) => a * 64 + d) 0 : Nat) : Int) ≤ MAX_48_BIT := by
    have hM : MAX_48_BIT = 281474976710655 := rfl
    have h64 : ((0 : Int) + 1) * 64 ^ 8 = 281474976710656 := by norm_num
    omega
  have hguard : ¬ ((((t.map (fun c => DECODE_TABLE c.toNat)).foldl
      (fun (a : Nat) (d : Nat) => a * 64 + d) 0 : Nat) : Int) < 0 ∨
      (((t.map (fun c => DECODE_TABLE c.toNat)).foldl
        (fun (a : Nat) (d : Nat) => a * 64 + d) 0 : Nat) : Int) > MAX_48_BIT) := by
    push_neg
    exact ⟨Int.natCast_nonneg _, hRM⟩
  have hdlt : ∀ d ∈ t.map (fun c => DECODE_TABLE c.toNat), d < 64 := by
    intro d hd
    obtain ⟨c, hc, rfl⟩ := List.mem_map.mp hd
    exact (mem_encodeTable c (htab c hc)).2.2.1
  have hlen : (t.map (fun c => DECODE_TABLE c.toNat)).length = 8 := by
    rw [List.length_map, h8]
  have hchunks : encodeChunks 8 ((((t.map (fun c => DECODE_TABLE c.toNat)).foldl
      (fun (a : Nat) (d : Nat) => a * 64 + d) 0 : Nat) : Int)).toNat =
      t.map (fun c => DECODE_TABLE c.toNat) := by
    rw [Int.toNat_natCast, ← hlen]
    exact encodeChunks_foldl _ hdlt
  have hmapback : (t.map (fun c => DECODE_TABLE c.toNat)).map
      (fun d => ENCODE_TABLE.getD d 'A') = t := by
    rw [List.map_map]
    have hpt : ∀ c ∈ t,
        ((fun d => ENCODE_TABLE.getD d 'A') ∘ fun c => DECODE_TABLE c.toNat) c = id c :=
      fun c hc => (mem_encodeTable c (htab c hc)).2.2.2
    rw [List.map_congr_left hpt, List.map_id]
  rw [hdecode]
  show encodeBase64URL48 _ = _
  rw [encodeBase64URL48, if_neg hguard, hchunks, hmapback]

/-- Claim C3: the codec is a bijection between [0, 2^48 - 1] and the
8-character strings over the 64-symbol alphabet: decoding an encoded value
gives the value back, and encoding a decoded valid string gives the string
back. -/
theorem codec_bijection (v : Int) (t : List Char)
    (hv0 : 0 ≤ v) (hv1 : v ≤ MAX_48_BIT)
    (ht8 : t.length = 8) (htab : ∀ c ∈ t, c ∈ BASE64URL_CHARS.toList) :
    (encodeBase64URL48 v).bind decodeTimestamp48 = .ok v ∧
    (decodeTimestamp48 t).bind encodeBase64URL48 = .ok t :=
  ⟨decode_encode v hv0 hv1, encode_decode t ht8 htab⟩

/-- Witness for codec_bijection at v = 12345 and t = "GT48demo". -/
theorem codec_bijection_witness :
    (encodeBase64URL48 12345).bind decodeTimestamp48 = .ok 12345 ∧
    (decodeTimestamp48 ("GT48demo".toList)).bind encodeBase64URL48 =
      .ok ("GT48demo".toList) :=
  codec_bijection 12345 ("GT48demo".toList) (by decide) (by decide) (by decide) (by decide)

/-- Claim C7: encodeBase64URL48 throws a range error exactly for values
outside [0, 2^48 - 1]; decodeTimestamp48 throws an encoding error for every
input whose length is not 8 and for every 8-character input containing a
character outside the alphabet, and succeeds on every other 8-character
input. -/
theorem codec_rejection (v : Int) (t : List Char) :
    ((v < 0 ∨ v > MAX_48_BIT) → encodeBase64URL48 v = .error .timestampRange) ∧
    (0 ≤ v → v ≤ MAX_48_BIT → succeeds (encodeBase64URL48 v) = true) ∧
    (t.length ≠ 8 → decodeTimestamp48 t = .error .invalidEncoding) ∧
    (t.length = 8 → ∀ c0 ∈ t, c0 ∉ BASE64URL_CHARS.toList →
      decodeTimestamp48 t = .error .invalidEncoding) ∧
    (t.length = 8 → (∀ c ∈ t, c ∈ BASE64URL_CHARS.toList) →
      succeeds (decodeTimestamp48 t) = true) := by
  refine ⟨?_, ?_, ?_, ?_, ?_⟩
  · intro h
    rw [encodeBase64URL48, if_pos h]
  · intro h0 h1
    rw [encodeBase64URL48, if_neg (by push_neg; exact ⟨h0, h1⟩)]
    rfl
  · intro h
    rw [decodeTimestamp48, if_pos h]
  · intro h8 c0 hc0 hbad
    rw [decodeTimestamp48, if_neg (by simp [h8])]
    exact decodeLoop_error t c0 hc0 hbad 0
  · intro h8 hall
    rw [decodeTimestamp48, if_neg (by simp [h8]), decodeLoop_ok t hall 0]
    rfl

/-- Witness for codec_rejection: encode rejects -1 and accepts 0; decode
rejects a short string and an 8-character string containing a plus sign,
and accepts the all-A string. -/
theorem codec_rejection_witness :
    encodeBase64URL48 (-1) = .error .timestampRange ∧
    succeeds (encodeBase64URL48 0) = true ∧
    decodeTimestamp48 ("ABC".toList) = .error .invalidEncoding ∧
    decodeTimestamp48 ("ABCDEFG+".toList) = .error .invalidEncoding ∧
    succeeds (decodeTimestamp48 ("AAAAAAAA".toList)) = true :=
  ⟨(codec_rejection (-1) []).1 (Or.inl (by decide)),
   (codec_rejection 0 []).2.1 (by decide) (by decide),
   (codec_rejection 0 ("ABC".toList)).2.2.1 (by decide),
   (codec_rejection 0 ("ABCDEFG+".toList)).2.2.2.1 (by decide) '+' (by decide) (by decide),
   (codec_rejection 0 ("AAAAAAAA".toList)).2.2.2.2 (by decide) (by decide)⟩

/-- Claim C8: isValidTimestamp never throws (it is a total Boolean
function) and returns true exactly when decodeTimestamp48 succeeds: the
additional range check it performs on the decoded value never fires,
because an 8-digit base-64 number is always below 2^48. -/
theorem isValid_iff_decode_succeeds (t : List Char) :
    isValidTimestamp t = succeeds (decodeTimestamp48 t) := by
  unfold isValidTimestamp succeeds
  cases hdec : decodeTimestamp48 t with
  | error e => rfl
  | ok r =>
    have hlen : t.length = 8 := by
      by_contra hlen
      rw [decodeTimestamp48, if_pos hlen] at hdec
      exact Except.noConfusion hdec
    have hloop : decodeLoop t 0 = .ok r := by
      rw [decodeTimestamp48, if_neg (by simp [hlen])] at hdec
      exact hdec
    obtain ⟨h0, h1⟩ := decodeLoop_bound t 0 r le_rfl hloop
    rw [hlen] at h1
    have hle : r ≤ MAX_48_BIT := by
      have hM : MAX_48_BIT = 281474976710655 := rfl
      have h64 : ((0 : Int) + 1) * 64 ^ 8 = 281474976710656 := by norm_num
      omega
    simp [h0, hle]

/-- Claim C10: decodeTimestamp48 rejects every non-string argument with the
same InvalidEncodingError kind as a wrong-length string, without coercing
it, so isValidTimestamp returns false on every non-string. -/
theorem decode_nonstring (v : JSValue) (h : ∀ s, v ≠ .str s) :
    decodeTimestamp48JS v = .error .invalidEncoding ∧
    decodeTimestamp48JS v = decodeTimestamp48JS (.str []) ∧
    isValidTimestampJS v = false := by
  cases v with
  | str s => exact absurd rfl (h s)
  | num n => exact ⟨rfl, rfl, rfl⟩
  | nullV => exact ⟨rfl, rfl, rfl⟩
  | undef => exact ⟨rfl, rfl, rfl⟩
  | boolV b => exact ⟨rfl, rfl, rfl⟩
  | obj => exact ⟨rfl, rfl, rfl⟩

/-- Witness for decode_nonstring at the numeric argument 5. -/
theorem decode_nonstring_witness :
    decodeTimestamp48JS (.num 5) = .error .invalidEncoding ∧
    isValidTimestampJS (.num 5) = false := by
  have h := decode_nonstring (.num 5) (fun s hs => JSValue.noConfusion hs)
  exact ⟨h.1, h.2.2⟩

end GT48

namespace GT48

/-- The packed value corresponding to a generator state: lastTimestamp
shifted past the sequence field plus the sequence counter.  After every
successful call the returned value equals the new state's packed value. -/
def stateVal (w : Nat) (s : GenState) : Int :=
  s.lastTimestamp * 2 ^ w + s.sequenceCounter

/-- The invariant every reachable generator state satisfies: lastTimestamp
and sequenceCounter are non-negative and the counter is within the
sequence field. -/
def GoodState (w : Nat) (s : GenState) : Prop :=
  0 ≤ s.lastTimestamp ∧ 0 ≤ s.sequenceCounter ∧ s.sequenceCounter ≤ maxSeq w

theorem goodState_init (w : Nat) : GoodState w initState := by
  have h2 : (0 : Int) < 2 ^ w := by positivity
  refine ⟨le_rfl, le_rfl, ?_⟩
  simp only [initState, maxSeq]
  omega

theorem spinWait_gt (last : Int) : ∀ (l : List Int) (t : Int) (rest : List Int),
    spinWait last l = some (t, rest) → last < t := by
  intro l
  induction l with
  | nil => intro t rest h; exact Option.noConfusion h
  | cons x xs ih =>
    intro t rest h
    by_cases hx : x ≤ last
    · rw [spinWait, if_pos hx] at h
      exact ih t rest h
    · rw [spinWait, if_neg hx] at h
      injection h with h
      injection h with h1 h2
      omega

theorem generateRaw_ok_step (w : Nat) (s : GenState) (clock : List Int) (v : Int)
    (s' : GenState) (rest : List Int) (hinv : GoodState w s)
    (h : generateRaw w s clock = .ok v s' rest) :
    GoodState w s' ∧ v = stateVal w s' ∧ stateVal w s < v := by
  obtain ⟨h0, h1, h2⟩ := hinv
  have hP : (0 : Int) < 2 ^ w := by positivity
  rw [maxSeq] at h2
  cases clock with
  | nil => exact GenResult.noConfusion h
  | cons now rest0 =>
    by_cases hc1 : now > maxTimestamp w
    · rw [generateRaw, if_pos hc1] at h
      exact GenResult.noConfusion h
    by_cases hc2 : now < 0
    · rw [generateRaw, if_neg hc1, if_pos hc2] at h
      exact GenResult.noConfusion h
    by_cases hc3 : now = s.lastTimestamp
    · by_cases hc4 : s.sequenceCounter + 1 > maxSeq w
      · rw [maxSeq] at hc4
        cases hspin : spinWait s.lastTimestamp rest0 with
        | none =>
          rw [generateRaw, if_neg hc1, if_neg hc2, if_pos hc3,
            if_pos (by rw [maxSeq]; exact hc4), hspin] at h
          exact GenResult.noConfusion h
        | some p =>
          obtain ⟨next, rest'⟩ := p
          rw [generateRaw, if_neg hc1, if_neg hc2, if_pos hc3,
            if_pos (by rw [maxSeq]; exact hc4), hspin] at h
          injection h with hv hs hr
          subst hv hs hr
          have hnext : s.lastTimestamp < next := spinWait_gt s.lastTimestamp rest0 next rest' hspin
          refine ⟨⟨by dsimp only; omega, le_rfl, by dsimp only; simp only [maxSeq]; omega⟩, by simp [stateVal], ?_⟩
          simp only [stateVal]
          nlinarith [mul_nonneg (show (0 : Int) ≤ next - s.lastTimestamp - 1 by omega) hP.le]
      · rw [generateRaw, if_neg hc1, if_neg hc2, if_pos hc3, if_neg hc4] at h
        rw [maxSeq] at hc4
        injection h with hv hs hr
        subst hv hs hr
        refine ⟨⟨h0, by dsimp only; omega, by dsimp only; simp only [maxSeq]; omega⟩, ?_, ?_⟩
        · simp [stateVal, hc3]
        · simp only [stateVal, hc3]
          omega
    by_cases hc5 : now > s.lastTimestamp
    · rw [generateRaw, if_neg hc1, if_neg hc2, if_neg hc3, if_pos hc5] at h
      injection h with hv hs hr
      subst hv hs hr
      refine ⟨⟨by dsimp only; omega, le_rfl, by dsimp only; simp only [maxSeq]; omega⟩, by simp [stateVal], ?_⟩
      simp only [stateVal]
      nlinarith [mul_nonneg (show (0 : Int) ≤ now - s.lastTimestamp - 1 by omega) hP.le]
    · by_cases hc4 : s.sequenceCounter + 1 > maxSeq w
      · rw [maxSeq] at hc4
        cases hspin : spinWait s.lastTimestamp rest0 with
        | none =>
          rw [generateRaw, if_neg hc1, if_neg hc2, if_neg hc3, if_neg hc5,
            if_pos (by rw [maxSeq]; exact hc4), hspin] at h
          exact GenResult.noConfusion h
        | some p =>
          obtain ⟨next, rest'⟩ := p
          rw [generateRaw, if_neg hc1, if_neg hc2, if_neg hc3, if_neg hc5,
            if_pos (by rw [maxSeq]; exact hc4), hspin] at h
          injection h with hv hs hr
          subst hv hs hr
          have hnext : s.lastTimestamp < next := spinWait_gt s.lastTimestamp rest0 next rest' hspin
          refine ⟨⟨by dsimp only; omega, le_rfl, by dsimp only; simp only [maxSeq]; omega⟩, by simp [stateVal], ?_⟩
          simp only [stateVal]
          nlinarith [mul_nonneg (show (0 : Int) ≤ next - s.lastTimestamp - 1 by omega) hP.le]
      · rw [generateRaw, if_neg hc1, if_neg hc2, if_neg hc3, if_neg hc5, if_neg hc4] at h
        rw [maxSeq] at hc4
        injection h with hv hs hr
        subst hv hs hr
        refine ⟨⟨h0, by dsimp only; omega, by dsimp only; simp only [maxSeq]; omega⟩, ?_, ?_⟩
        · simp [stateVal]
        · simp only [stateVal]
          omega

theorem generateRaw_rangeError_step (w : Nat) (s : GenState) (clock : List Int)
    (s' : GenState) (rest : List Int)
    (h : generateRaw w s clock = .rangeError s' rest) : s' = s := by
  cases clock with
  | nil => exact GenResult.noConfusion h
  | cons now rest0 =>
    by_cases hc1 : now > maxTimestamp w
    · rw [generateRaw, if_pos hc1] at h
      injection h with hs hr
      exact hs.symm
    by_cases hc2 : now < 0
    · rw [generateRaw, if_neg hc1, if_pos hc2] at h
      injection h with hs hr
      exact hs.symm
    by_cases hc3 : now = s.lastTimestamp
    · by_cases hc4 : s.sequenceCounter + 1 > maxSeq w
      · cases hspin : spinWait s.lastTimestamp rest0 with
        | none =>
          rw [generateRaw, if_neg hc1, if_neg hc2, if_pos hc3, if_pos hc4, hspin] at h
          exact GenResult.noConfusion h
        | some p =>
          obtain ⟨next, rest'⟩ := p
          rw [generateRaw, if_neg hc1, if_neg hc2, if_pos hc3, if_pos hc4, hspin] at h
          exact GenResult.noConfusion h
      · rw [generateRaw, if_neg hc1, if_neg hc2, if_pos hc3, if_neg hc4] at h
        exact GenResult.noConfusion h
    by_cases hc5 : now > s.lastTimestamp
    · rw [generateRaw, if_neg hc1, if_neg hc2, if_neg hc3, if_pos hc5] at h
      exact GenResult.noConfusion h
    · by_cases hc4 : s.sequenceCounter + 1 > maxSeq w
      · cases hspin : spinWait s.lastTimestamp rest0 with
        | none =>
          rw [generateRaw, if_neg hc1, if_neg hc2, if_neg hc3, if_neg hc5, if_pos hc4, hspin] at h
          exact GenResult.noConfusion h
        | some p =>
          obtain ⟨next, rest'⟩ := p
          rw [generateRaw, if_neg hc1, if_neg hc2, if_neg hc3, if_neg hc5, if_pos hc4, hspin] at h
          exact GenResult.noConfusion h
      · rw [generateRaw, if_neg hc1, if_neg hc2, if_neg hc3, if_neg hc5, if_neg hc4] at h
        exact GenResult.noConfusion h

end GT48

namespace GT48

theorem runGen_mono (w : Nat) : ∀ (fuel : Nat) (s : GenState) (clock : List Int),
    GoodState w s →
    List.Chain' (· < ·) (runGen w fuel s clock) ∧
    ∀ x ∈ runGen w fuel s clock, stateVal w s < x := by
  intro fuel
  induction fuel with
  | zero =>
    intro s clock h
    simp [runGen, runGenS]
  | succ fuel ih =>
    intro s clock hinv
    cases hg : generateRaw w s clock with
    | ok v s' rest =>
      obtain ⟨hinv', hval, hlt⟩ := generateRaw_ok_step w s clock v s' rest hinv hg
      obtain ⟨hchain, hall⟩ := ih s' rest hinv'
      have hrun : runGen w (fuel + 1) s clock = v :: runGen w fuel s' rest := by
        simp [runGen, runGenS, hg]
      rw [hrun]
      constructor
      · rw [List.chain'_cons']
        refine ⟨?_, hchain⟩
        intro y hy
        have hmem : y ∈ runGen w fuel s' rest := List.mem_of_mem_head? hy
        have := hall y hmem
        omega
      · intro x hx
        rcases List.mem_cons.mp hx with hx | hx
        · omega
        · have := hall x hx
          omega
    | rangeError s2 rest =>
      have hs : s2 = s := generateRaw_rangeError_step w s clock s2 rest hg
      have hrun : runGen w (fuel + 1) s clock = runGen w fuel s rest := by
        simp [runGen, runGenS, hg, hs]
      rw [hrun]
      exact ih s rest hinv
    | noClock =>
      have hrun : runGen w (fuel + 1) s clock = [] := by
        simp [runGen, runGenS, hg]
      rw [hrun]
      simp

/-- Claim C1: for any sequence width and any mock-clock reading sequence,
the values returned by the successful generateRaw calls of one generator
instance, in call order, are strictly increasing: every later value is
strictly greater than every earlier one. -/
theorem generateRaw_strict_mono (w : Nat) (fuel : Nat) (clock : List Int) :
    (runGen w fuel initState clock).Pairwise (· < ·) := by
  have h := (runGen_mono w fuel initState clock (goodState_init w)).1
  exact List.chain'_iff_pairwise.mp h

end GT48

namespace GT48

theorem spinWait_replicate (last t T' : Int) (ht : t ≤ last) (hT' : last < T') :
    ∀ (k : Nat) (rest : List Int),
      spinWait last (List.replicate k t ++ T' :: rest) = some (T', rest) := by
  intro k
  induction k with
  | zero =>
    intro rest
    simp only [List.replicate, List.nil_append, spinWait, if_neg (not_le.mpr hT')]
  | succ k ih =>
    intro rest
    rw [List.replicate_succ, List.cons_append, spinWait, if_pos ht]
    exact ih rest

theorem runGenS_burst (w : Nat) (T : Int) (hT0 : 0 ≤ T) (hTm : ¬ T > maxTimestamp w) :
    ∀ (k : Nat) (j : Int) (m g o : Nat) (rest : List Int),
      0 ≤ j → j + (k : Int) ≤ maxSeq w →
      runGenS w (k + m) ⟨T, j, g, o⟩ (List.replicate k T ++ rest) =
        ((List.range k).map (fun (i : Nat) => T * 2 ^ w + (j + 1 + (i : Int))) ++
          (runGenS w m ⟨T, j + (k : Int), g + k, o⟩ rest).1,
         (runGenS w m ⟨T, j + (k : Int), g + k, o⟩ rest).2) := by
  intro k
  induction k with
  | zero =>
    intro j m g o rest h0 hk
    simp
  | succ k ih =>
    intro j m g o rest h0 hk
    have hseq : ¬ ((⟨T, j, g, o⟩ : GenState).sequenceCounter + 1 > maxSeq w) := by
      dsimp only
      push_cast at hk
      omega
    have hstep : generateRaw w ⟨T, j, g, o⟩ (T :: (List.replicate k T ++ rest)) =
        .ok (T * 2 ^ w + (j + 1)) ⟨T, j + 1, g + 1, o⟩ (List.replicate k T ++ rest) := by
      rw [generateRaw, if_neg hTm, if_neg (by omega), if_pos rfl, if_neg hseq]
    have hrepl : List.replicate (k + 1) T ++ rest = T :: (List.replicate k T ++ rest) := by
      rw [List.replicate_succ, List.cons_append]
    have hfuel : k + 1 + m = (k + m) + 1 := by omega
    rw [hrepl, hfuel]
    simp only [runGenS, hstep]
    have hih := ih (j + 1) m (g + 1) o rest (by omega) (by push_cast at hk ⊢; omega)
    rw [hih]
    have hstate : j + 1 + (k : Int) = j + ((k : Nat) + 1 : Nat) := by push_cast; ring
    have hcount : g + 1 + k = g + (k + 1) := by omega
    rw [List.range_succ_eq_map, List.map_cons, List.map_map]
    refine congrArg₂ Prod.mk ?_ ?_
    · rw [List.cons_append]
      refine congrArg₂ List.cons (by push_cast; ring) ?_
      refine congrArg₂ HAppend.hAppend ?_ ?_
      · apply List.map_congr_left
        intro i hi
        simp only [Function.comp]
        push_cast
        ring
      · rw [hstate, hcount]
    · rw [hstate, hcount]

end GT48

namespace GT48

theorem runGenS_ok (w fuel : Nat) (s : GenState) (clock : List Int) (v : Int)
    (s' : GenState) (rest : List Int) (h : generateRaw w s clock = .ok v s' rest) :
    runGenS w (fuel + 1) s clock =
      (v :: (runGenS w fuel s' rest).1, (runGenS w fuel s' rest).2) := by
  simp only [runGenS, h]

theorem runGenS_one (w : Nat) (s : GenState) (clock : List Int) (v : Int)
    (s' : GenState) (rest : List Int) (h : generateRaw w s clock = .ok v s' rest) :
    runGenS w 1 s clock = ([v], s') := by
  have h1 : (1 : Nat) = 0 + 1 := rfl
  rw [h1, runGenS_ok w 0 s clock v s' rest h]
  rfl

/-- Claim C4, amended with T at least 1 (and at most the time bound): on a
fresh generator with sequence width w and a mock clock that reads the tick
value T for the first 2^w + 5 readings and then a value T' strictly greater
than T, the first 2^w calls return identifiers with time component T and
sequence values 0 through 2^w - 1, and the (2^w + 1)-st call is the
overflow call: it bumps overflowCount from 0 to exactly 1, busy-polls past
the remaining T readings until it sees T' > T, and returns the identifier
with time component T' and sequence 0. -/
theorem generateRaw_overflow_recovery (w : Nat) (T T' : Int) (rest' : List Int)
    (hT : 1 ≤ T) (hTm : T ≤ maxTimestamp w) (hT' : T < T') :
    runGenS w (2 ^ w + 1) initState (List.replicate (2 ^ w + 5) T ++ T' :: rest') =
      ((List.range (2 ^ w)).map (fun (i : Nat) => T * 2 ^ w + (i : Int)) ++ [T' * 2 ^ w],
       { lastTimestamp := T', sequenceCounter := 0,
         generatedCount := 2 ^ w + 1, overflowCount := 1 }) := by
  obtain ⟨k, hk⟩ : ∃ k, 2 ^ w = k + 1 :=
    ⟨2 ^ w - 1, by have h : 0 < 2 ^ w := Nat.two_pow_pos w; omega⟩
  have hkI : (2 : Int) ^ w = (k : Int) + 1 := by
    have h : (((2 : Nat) ^ w : Nat) : Int) = (2 : Int) ^ w := by push_cast; ring
    omega
  have hmS : maxSeq w = (k : Int) := by rw [maxSeq]; omega
  have hclock : List.replicate (2 ^ w + 5) T ++ T' :: rest' =
      T :: (List.replicate k T ++ (T :: (List.replicate 4 T ++ T' :: rest'))) := by
    have h5 : 2 ^ w + 5 = 1 + (k + (1 + 4)) := by omega
    rw [h5, List.replicate_add, List.replicate_add, List.replicate_add]
    simp [List.append_assoc]
  have hstep1 : generateRaw w initState
      (T :: (List.replicate k T ++ (T :: (List.replicate 4 T ++ T' :: rest')))) =
      .ok (T * 2 ^ w + 0) ⟨T, 0, 1, 0⟩
        (List.replicate k T ++ (T :: (List.replicate 4 T ++ T' :: rest'))) := by
    rw [generateRaw, if_neg (by omega), if_neg (by omega),
      if_neg (by simp only [initState]; omega), if_pos (by simp only [initState]; omega)]
    rfl
  have hfuel : 2 ^ w + 1 = (k + 1) + 1 := by omega
  have hburst := runGenS_burst w T (by omega) (by omega) k 0 1 1 0
    (T :: (List.replicate 4 T ++ T' :: rest')) le_rfl (by omega)
  have hspin : spinWait T (List.replicate 4 T ++ T' :: rest') = some (T', rest') :=
    spinWait_replicate T T T' le_rfl hT' 4 rest'
  have hstep3 : generateRaw w ⟨T, 0 + (k : Int), 1 + k, 0⟩
      (T :: (List.replicate 4 T ++ T' :: rest')) =
      .ok (T' * 2 ^ w + 0) ⟨T', 0, 1 + k + 1, 0 + 1⟩ rest' := by
    rw [generateRaw, if_neg (by omega), if_neg (by omega), if_pos rfl,
      if_pos (by dsimp only; omega)]
    rw [hspin]
  rw [hclock, hfuel, runGenS_ok w (k + 1) initState _ _ _ _ hstep1, hburst,
    runGenS_one w _ _ _ _ _ hstep3]
  refine congrArg₂ Prod.mk ?_ ?_
  · rw [hk, List.range_succ_eq_map, List.map_cons, List.map_map]
    rw [List.cons_append]
    refine congrArg₂ List.cons (by push_cast; ring) ?_
    refine congrArg₂ HAppend.hAppend ?_ (by rw [add_zero])
    apply List.map_congr_left
    intro i hi
    simp only [Function.comp]
    push_cast
    ring
  · refine congrArg₂ (fun a b => GenState.mk T' 0 a b) (by omega) (by omega)

end GT48

namespace GT48

/-- Claim C4 counterexample, at sequence width 8 and tick value T = 0 on a
fresh generator: because the generator starts with lastTimestamp = 0, the
very first call with reading 0 takes the same-tick branch and returns
sequence 1, so the run of 2^8 + 1 calls does not produce the claimed list
(time component 0 with sequences 0 through 255, then the post-overflow
identifier): it produces the 256 values 1..255, 256 instead. -/
theorem overflow_recovery_tick_zero :
    runGen 8 (2 ^ 8 + 1) initState (List.replicate (2 ^ 8 + 5) 0 ++ 1 :: []) ≠
      (List.range (2 ^ 8)).map (fun (i : Nat) => 0 * 2 ^ 8 + (i : Int)) ++ [1 * 2 ^ 8] := by
  decide

/-- Witness for generateRaw_overflow_recovery at w = 1, T = 1, T' = 2. -/
theorem generateRaw_overflow_recovery_witness :
    runGenS 1 (2 ^ 1 + 1) initState (List.replicate (2 ^ 1 + 5) 1 ++ 2 :: []) =
      ((List.range (2 ^ 1)).map (fun (i : Nat) => 1 * 2 ^ 1 + (i : Int)) ++ [2 * 2 ^ 1],
       { lastTimestamp := 2, sequenceCounter := 0,
         generatedCount := 2 ^ 1 + 1, overflowCount := 1 }) :=
  generateRaw_overflow_recovery 1 1 2 [] (by decide) (by decide) (by decide)

end GT48
